import Mathlib

/-!
getBlock_io: wallet-activity aggregation over the last blocks of a chain

A shallow embedding of `src/main.go`.

* The ledger `map[string]*big.Int` is a list of bindings from wallet keys to
  addresses, together with the store of `big.Int` objects the addresses point
  into.  Two keys may be bound to one address: the store keeps what Go's
  pointer values do.
* `checkTransactions` is the body of the aggregation task, one transaction
  (one critical section) at a time.
* The final loop of `main` is `findMax`, run over the bindings in the order the
  `range` statement happens to yield them.
* `postRequest` takes the transport (building the request, the HTTP round
  trip, reading the body) as a parameter and classifies what it returns.
* `getBlockBodyByHash` is the walker loop with its three attempts per hash.
* The hand-off between `main` and the walker over the two channels is a
  scheduler-driven step function on a pipeline state.
-/

namespace GetBlock

/-! ## Data model -/

/-- Transaction of a block: sender, receiver and the value as a numeric string. -/
structure Transaction where
  From : String
  To : String
  Value : String
deriving DecidableEq, Repr

/-- Content of a decoded block (`BlockContent` in the source). -/
structure BlockContent where
  Number : String
  Hash : String
  PrevHash : String
  Transactions : List Transaction
deriving DecidableEq, Repr

/-- Ledger state: `wallets` binds each key of the Go map to the address of a
`big.Int` object, `heap` holds the objects allocated so far (address = index). -/
structure Ledger where
  wallets : List (String × Nat)
  heap : List Int
deriving DecidableEq, Repr

namespace Ledger

/-- The map created by `make(map[string]*big.Int)`. -/
def empty : Ledger := ⟨[], []⟩

/-- Address bound to key `k`, the `(*wallets)[k]` of the source. -/
def lookup (L : Ledger) (k : String) : Option Nat := L.wallets.lookup k

/-- Value of the object at address `p`. -/
def deref (L : Ledger) (p : Nat) : Int := L.heap.getD p 0

/-- Allocation by `new(big.Int)`: a fresh object holding `v`; its address is
the first component. -/
def alloc (L : Ledger) (v : Int) : Nat × Ledger :=
  (L.heap.length, { L with heap := L.heap ++ [v] })

/-- In-place addition `p.Add(p, q)`: the object at `p` receives the sum of the
objects at `p` and at `q`. -/
def addInPlace (L : Ledger) (p q : Nat) : Ledger :=
  { L with heap := L.heap.set p (L.deref p + L.deref q) }

/-- Value a key is observed to hold: the object its binding points to. -/
def value (L : Ledger) (k : String) : Option Int := (L.lookup k).map L.deref

/-- Bindings with the pointers followed: what a reader of the map sees. -/
def entries (L : Ledger) : List (String × Int) :=
  L.wallets.map (fun e => (e.1, L.deref e.2))

/-- Every binding points to an allocated object. -/
def Valid (L : Ledger) : Prop := ∀ e ∈ L.wallets, e.2 < L.heap.length

/-- Keys of a map are pairwise distinct. -/
def KeysNodup (L : Ledger) : Prop := (L.wallets.map Prod.fst).Nodup

instance (L : Ledger) : Decidable L.Valid := by unfold Valid; infer_instance

instance (L : Ledger) : Decidable L.KeysNodup := by unfold KeysNodup; infer_instance

end Ledger

/-! ## Parsing of values

`big.Int.SetString(s, 0)` belongs to the numeric library.  The aggregation is
parametrised by the parser; `setString0` is a model of it used for concrete
runs: optional sign, then `0x`, `0b`, `0o` or a leading `0` select base 16, 2,
8, 8, otherwise base 10.  Strings it does not accept (digit separators
included) are mapped to `0`. -/

/-- Numeric value of a digit character. -/
def digitVal (c : Char) : Option Nat :=
  if '0' ≤ c ∧ c ≤ '9' then some (c.toNat - 48)
  else if 'a' ≤ c ∧ c ≤ 'z' then some (c.toNat - 87)
  else if 'A' ≤ c ∧ c ≤ 'Z' then some (c.toNat - 55)
  else none

/-- Digits of `cs` read in `base`, most significant first, onto `acc`. -/
def parseDigits (base : Nat) : List Char → Nat → Option Nat
  | [], acc => some acc
  | c :: cs, acc =>
    match digitVal c with
    | some d => if d < base then parseDigits base cs (acc * base + d) else none
    | none => none

/-- Unsigned literal with the base taken from its prefix. -/
def parseMagnitude : List Char → Option Nat
  | [] => none
  | ['0'] => some 0
  | '0' :: 'x' :: d :: ds => parseDigits 16 (d :: ds) 0
  | '0' :: 'X' :: d :: ds => parseDigits 16 (d :: ds) 0
  | '0' :: 'b' :: d :: ds => parseDigits 2 (d :: ds) 0
  | '0' :: 'B' :: d :: ds => parseDigits 2 (d :: ds) 0
  | '0' :: 'o' :: d :: ds => parseDigits 8 (d :: ds) 0
  | '0' :: 'O' :: d :: ds => parseDigits 8 (d :: ds) 0
  | '0' :: d :: ds => parseDigits 8 (d :: ds) 0
  | d :: ds => parseDigits 10 (d :: ds) 0

/-- Model of `SetString(s, 0)` on signed literals. -/
def setString0 (s : String) : Int :=
  match s.data with
  | '-' :: cs => -(((parseMagnitude cs).getD 0 : Nat) : Int)
  | '+' :: cs => (((parseMagnitude cs).getD 0 : Nat) : Int)
  | cs => (((parseMagnitude cs).getD 0 : Nat) : Int)

/-! ## TransactionAggregator -/

/-- The insert-or-add of one key inside the critical section:
`if _, ok := (*wallets)[k]; !ok { (*wallets)[k] = val } else
{ (*wallets)[k].Add((*wallets)[k], val) }`, where `val` is an address. -/
def insertOrAdd (L : Ledger) (k : String) (val : Nat) : Ledger :=
  match L.lookup k with
  | none => { L with wallets := L.wallets ++ [(k, val)] }
  | some p => L.addInPlace p val

/-- The critical section of one transaction whose parsed object is at `val`:
first the `From` key, then the `To` key. -/
def mergeTx (L : Ledger) (tx : Transaction) (val : Nat) : Ledger :=
  insertOrAdd (insertOrAdd L tx.From val) tx.To val

/-- Body of `checkTransactions`: for each transaction allocate `val`, parse the
value into it and return at once when it is zero; otherwise run the
critical section and continue with the next transaction. -/
def checkTransactions (setString : String → Int) (L : Ledger) :
    List Transaction → Ledger
  | [] => L
  | tx :: txs =>
    let a := L.alloc (setString tx.Value)
    if a.2.deref a.1 = 0 then a.2
    else checkTransactions setString (mergeTx a.2 tx a.1) txs

/-- Blocks merged one after another, each by a whole run of
`checkTransactions`. -/
def mergeBlocks (setString : String → Int) (L : Ledger)
    (blocks : List (List Transaction)) : Ledger :=
  blocks.foldl (checkTransactions setString) L

/-- The accounting the specification states for a merge of `txs` into `L`:
the previous entry of `w` (`0` when absent) plus the values of the transactions
whose `From` is `w` plus the values of those whose `To` is `w`. -/
def specValue (setString : String → Int) (L : Ledger) (txs : List Transaction)
    (w : String) : Int :=
  (L.value w).getD 0 +
    ((txs.filter (fun tx => tx.From = w)).map (fun tx => setString tx.Value)).sum +
    ((txs.filter (fun tx => tx.To = w)).map (fun tx => setString tx.Value)).sum

/-! ## Coordinator: the final scan -/

/-- The loop `for key, val := range wallets` of `main`, over the bindings in
the order `order` in which the range statement yields them.  The accumulator is
`(wallet, change)`, initially `("", min)` with `min` zero; a binding replaces it
when `val.Cmp(change) == 1`. -/
def findMax (L : Ledger) (order : List (String × Nat)) : String × Int :=
  order.foldl
    (fun acc e => if acc.2 < L.deref e.2 then (e.1, L.deref e.2) else acc) ("", 0)

/-- Two keys bound to one object. -/
def Aliased (L : Ledger) (a b : String) : Prop :=
  ∃ p, L.lookup a = some p ∧ L.lookup b = some p


/-! ## BlockFetcher -/

/-- Raw bytes of a response body (`[]byte`); the nil slice is the empty list. -/
abbrev Bytes := List UInt8

/-- The JSON-RPC method names of the source. -/
def methodBlockNumber : String := "eth_blockNumber"

def methodGetBlockByNumber : String := "eth_getBlockByNumber"

def methodGetBlockByHash : String := "eth_getBlockByHash"

/-- The request body `fmt.Sprintf(requestBodyFormat, method, params)`. -/
def requestBody (method params : String) : String :=
  "\x7b\"id\": \"getblock.io\", \"jsonrpc\": \"2.0\", \"method\": \"" ++ method ++
    "\", \"params\": [" ++ params ++ "]\x7d"

/-- The bytes of the literal `error`. -/
def errorLiteral : Bytes := [101, 114, 114, 111, 114]

/-- Byte-wise `strings.Contains(s, substr)`: `substr` starts at some position
of `s`. -/
def contains : Bytes → Bytes → Bool
  | [], substr => substr.isPrefixOf []
  | c :: s, substr => substr.isPrefixOf (c :: s) || contains s substr

/-- Errors `postRequest` returns: one handed up from the transport
(`http.NewRequest`, `Do`, `ioutil.ReadAll`), or the `response has error` error
built from the body. -/
inductive PostError (ε : Type) where
  | transport (e : ε)
  | response (body : Bytes)
deriving DecidableEq, Repr

/-- The function `postRequest`.  `roundTrip` stands for the transport: from the
state of the outside world and the request body it yields either an error or
all bytes of the response, and the next state of the world. -/
def postRequest {σ ε : Type} (roundTrip : σ → String → Except ε Bytes × σ)
    (s : σ) (method params : String) : Except (PostError ε) Bytes × σ :=
  match roundTrip s (requestBody method params) with
  | (.error e, s') => (.error (.transport e), s')
  | (.ok body, s') =>
    if contains body errorLiteral then (.error (.response body), s')
    else (.ok body, s')

/-! ## ChainWalker -/

/-- The call made for one hash by the walker:
`postRequest(methodGetBlockByHash, fmt.Sprintf("\"%s\", true", hash))`. -/
def fetchByHash {σ ε : Type} (roundTrip : σ → String → Except ε Bytes × σ)
    (s : σ) (hash : String) : Except (PostError ε) Bytes × σ :=
  postRequest roundTrip s methodGetBlockByHash ("\"" ++ hash ++ "\", true")

/-- Variables of `getBlockBodyByHash` with the world it talks to and two logs:
`requested` has one entry per call of `postRequest`, `pushed` one per body sent
on `bodies`. -/
structure Walker (σ ε : Type) where
  world : σ
  body : Bytes
  err : Option (PostError ε)
  requested : List String
  pushed : List Bytes

/-- One pass through the body of the retry loop: `body, err = postRequest(...)`. -/
def attempt {σ ε : Type} (roundTrip : σ → String → Except ε Bytes × σ)
    (hash : String) (w : Walker σ ε) : Walker σ ε :=
  match fetchByHash roundTrip w.world hash with
  | (.ok b, s') =>
    { w with world := s', body := b, err := none, requested := w.requested ++ [hash] }
  | (.error e, s') =>
    { w with world := s', body := [], err := some e, requested := w.requested ++ [hash] }

/-- The loop `for i := 0; i < 3; i++ { ...; if err == nil { break } }` with
`n` passes left. -/
def attempts {σ ε : Type} (roundTrip : σ → String → Except ε Bytes × σ)
    (hash : String) : Nat → Walker σ ε → Walker σ ε
  | 0, w => w
  | n + 1, w =>
    let w' := attempt roundTrip hash w
    if w'.err.isNone then w' else attempts roundTrip hash n w'

/-- The function `getBlockBodyByHash` on the sequence of hashes its input
channel delivers.  The second component is the error of the `panic(err)` that
ended the walk, or `none` when the channel was drained. -/
def getBlockBodyByHash {σ ε : Type} (roundTrip : σ → String → Except ε Bytes × σ) :
    List String → Walker σ ε → Walker σ ε × Option (PostError ε)
  | [], w => (w, none)
  | hash :: hashes, w =>
    let w' := attempts roundTrip hash 3 w
    match w'.err with
    | some e => (w', some e)
    | none => getBlockBodyByHash roundTrip hashes { w' with pushed := w'.pushed ++ [w'.body] }

/-- Outcomes of the first `n` calls for `hash` made in a row from world `s`. -/
def outcomes {σ ε : Type} (roundTrip : σ → String → Except ε Bytes × σ)
    (hash : String) : Nat → σ → List (Except (PostError ε) Bytes)
  | 0, _ => []
  | n + 1, s =>
    (fetchByHash roundTrip s hash).1 :: outcomes roundTrip hash n (fetchByHash roundTrip s hash).2

/-- World reached after `n` calls for `hash` in a row from world `s`. -/
def worldAfter {σ ε : Type} (roundTrip : σ → String → Except ε Bytes × σ)
    (hash : String) : Nat → σ → σ
  | 0, s => s
  | n + 1, s => worldAfter roundTrip hash n (fetchByHash roundTrip s hash).2

/-! ## Coordinator: `main` and the walker over the two channels

The state below starts at line 77 of the source, with the head block decoded.
`main` and the walker move one at a time, picked by a schedule; a move that
would block (a receive on an empty channel, a send on a full one) leaves the
state as it is.  The channels have capacity `length - 1`; the model is for
`2 ≤ length` (the source has `length = 100`), where both are buffered.  `done`
records that `main` has left its loop: `wg.Wait`, the two `close` calls and
the scan follow and are not steps of this state, while the walker may still
move. -/

/-- Where `main` stands: before `hashes <- block.PrevHash` of line 91, at the
receive of line 94, at the send of line 99, after the loop, or stopped by a
`panic`. -/
inductive MainPc where
  | seed
  | recv
  | send
  | done
  | crashed
deriving DecidableEq, Repr

/-- Where the walker stands: at the receive of `range hashes`, at the send
`bodies <- body`, or stopped by `panic(err)`. -/
inductive WalkerPc where
  | recv
  | push
  | crashed
deriving DecidableEq, Repr

/-- State of the pipeline.  `tasks` lists the transaction lists handed to
`go checkTransactions`, `sent` the hashes `main` has put on `hashes`,
`received` the bodies it has taken from `bodies`. -/
structure Pipeline (σ ε : Type) where
  length : Nat
  mpc : MainPc
  i : Nat
  block : BlockContent
  tasks : List (List Transaction)
  sent : List String
  received : List Bytes
  hashes : List String
  bodies : List Bytes
  wpc : WalkerPc
  walker : Walker σ ε

/-- State at line 90: the task of the head block is spawned, the channels are
empty, the walker is started. -/
def Pipeline.init {σ ε : Type} (length : Nat) (head : BlockContent) (world : σ) :
    Pipeline σ ε :=
  { length := length, mpc := .seed, i := 0, block := head, tasks := [head.Transactions],
    sent := [], received := [], hashes := [], bodies := [], wpc := .recv,
    walker := ⟨world, [], none, [], []⟩ }

/-- One move of `main`.  `decode` is `unmarshalToBlock` (`none` for an error). -/
def stepMain {σ ε : Type} (decode : Bytes → Option BlockContent) (P : Pipeline σ ε) :
    Pipeline σ ε :=
  match P.wpc with
  | .crashed => P
  | _ =>
    match P.mpc with
    | .seed =>
      if P.hashes.length < P.length - 1 then
        { P with
          hashes := P.hashes ++ [P.block.PrevHash]
          sent := P.sent ++ [P.block.PrevHash]
          i := 0
          mpc := if 0 < P.length - 1 then .recv else .done }
      else P
    | .recv =>
      match P.bodies with
      | [] => P
      | b :: rest =>
        match decode b with
        | none => { P with bodies := rest, received := P.received ++ [b], mpc := .crashed }
        | some blk =>
          { P with bodies := rest, received := P.received ++ [b], block := blk, mpc := .send }
    | .send =>
      if P.hashes.length < P.length - 1 then
        { P with
          hashes := P.hashes ++ [P.block.PrevHash]
          sent := P.sent ++ [P.block.PrevHash]
          tasks := P.tasks ++ [P.block.Transactions]
          i := P.i + 1
          mpc := if P.i + 1 < P.length - 1 then .recv else .done }
      else P
    | .done => P
    | .crashed => P

/-- One move of the walker: receive a hash and run the three attempts, or send
the body. -/
def stepWalker {σ ε : Type} (roundTrip : σ → String → Except ε Bytes × σ)
    (P : Pipeline σ ε) : Pipeline σ ε :=
  match P.mpc with
  | .crashed => P
  | _ =>
    match P.wpc with
    | .recv =>
      match P.hashes with
      | [] => P
      | hash :: rest =>
        match (attempts roundTrip hash 3 P.walker).err with
        | some _ =>
          { P with hashes := rest, walker := attempts roundTrip hash 3 P.walker, wpc := .crashed }
        | none =>
          { P with hashes := rest, walker := attempts roundTrip hash 3 P.walker, wpc := .push }
    | .push =>
      if P.bodies.length < P.length - 1 then
        { P with
          bodies := P.bodies ++ [P.walker.body]
          walker := { P.walker with pushed := P.walker.pushed ++ [P.walker.body] }
          wpc := .recv }
      else P
    | .crashed => P

/-- One move of the process picked by the scheduler: `true` for `main`,
`false` for the walker. -/
def step {σ ε : Type} (roundTrip : σ → String → Except ε Bytes × σ)
    (decode : Bytes → Option BlockContent) (P : Pipeline σ ε) (who : Bool) : Pipeline σ ε :=
  if who then stepMain decode P else stepWalker roundTrip P

/-- The pipeline run along a schedule. -/
def run {σ ε : Type} (roundTrip : σ → String → Except ε Bytes × σ)
    (decode : Bytes → Option BlockContent) (sched : List Bool) (P : Pipeline σ ε) :
    Pipeline σ ε :=
  sched.foldl (step roundTrip decode) P

/-- Schedule of `n` rounds: the walker receives and sends, then `main`
receives and sends. -/
def rounds : Nat → List Bool
  | 0 => []
  | n + 1 => false :: false :: true :: true :: rounds n

/-- A schedule that lets a run of depth `length` reach the end of the loop. -/
def completeSchedule (length : Nat) : List Bool := true :: rounds (length - 1)

/-- The blocks of the walk: the head, then the block named by the parent hash
of the one before. -/
def chain (blockOf : String → BlockContent) (head : BlockContent) : Nat → BlockContent
  | 0 => head
  | k + 1 => blockOf (chain blockOf head k).PrevHash

/-- Transaction lists of the first `n` blocks of the walk. -/
def chainTasks (blockOf : String → BlockContent) (head : BlockContent) (n : Nat) :
    List (List Transaction) :=
  (List.range n).map (fun k => (chain blockOf head k).Transactions)

/-- Parent hashes of the first `n` blocks of the walk. -/
def chainHashes (blockOf : String → BlockContent) (head : BlockContent) (n : Nat) :
    List String :=
  (List.range n).map (fun k => (chain blockOf head k).PrevHash)

/-- Bodies fetched for the parent hashes of the first `n` blocks of the walk. -/
def chainBodies (bodyOf : String → Bytes) (blockOf : String → BlockContent)
    (head : BlockContent) (n : Nat) : List Bytes :=
  (List.range n).map (fun k => bodyOf (chain blockOf head k).PrevHash)

/-- Stages of a run in which no call and no decoding fails. -/
inductive Stage where
  | seed
  | hashQueued
  | bodyFetched
  | bodyQueued
  | bodyDecoded
  | doneQueued
  | doneFetched
  | donePushed
deriving DecidableEq, Repr

/-- Where `main` stands at a stage. -/
def Stage.mainPc : Stage → MainPc
  | .seed => .seed
  | .hashQueued => .recv
  | .bodyFetched => .recv
  | .bodyQueued => .recv
  | .bodyDecoded => .send
  | .doneQueued => .done
  | .doneFetched => .done
  | .donePushed => .done

/-- Where the walker stands at a stage. -/
def Stage.walkerPc : Stage → WalkerPc
  | .bodyFetched => .push
  | .doneFetched => .push
  | _ => .recv

/-- The state of the pipeline at stage `st` of round `k`. -/
def AtStage {σ ε : Type} (bodyOf : String → Bytes) (blockOf : String → BlockContent)
    (head : BlockContent) (N : Nat) (st : Stage) (k : Nat) (P : Pipeline σ ε) : Prop :=
  P.length = N ∧
  match st with
  | .seed =>
    k = 0 ∧ P.mpc = .seed ∧ P.i = 0 ∧ P.block = head ∧
    P.tasks = chainTasks blockOf head 1 ∧ P.sent = [] ∧ P.received = [] ∧
    P.hashes = [] ∧ P.bodies = [] ∧ P.wpc = .recv ∧
    P.walker.requested = [] ∧ P.walker.pushed = []
  | .hashQueued =>
    k + 1 < N ∧ P.mpc = .recv ∧ P.i = k ∧ P.block = chain blockOf head k ∧
    P.tasks = chainTasks blockOf head (k + 1) ∧ P.sent = chainHashes blockOf head (k + 1) ∧
    P.received = chainBodies bodyOf blockOf head k ∧
    P.hashes = [(chain blockOf head k).PrevHash] ∧ P.bodies = [] ∧ P.wpc = .recv ∧
    P.walker.requested = chainHashes blockOf head k ∧
    P.walker.pushed = chainBodies bodyOf blockOf head k
  | .bodyFetched =>
    k + 1 < N ∧ P.mpc = .recv ∧ P.i = k ∧ P.block = chain blockOf head k ∧
    P.tasks = chainTasks blockOf head (k + 1) ∧ P.sent = chainHashes blockOf head (k + 1) ∧
    P.received = chainBodies bodyOf blockOf head k ∧
    P.hashes = [] ∧ P.bodies = [] ∧ P.wpc = .push ∧
    P.walker.body = bodyOf (chain blockOf head k).PrevHash ∧
    P.walker.requested = chainHashes blockOf head (k + 1) ∧
    P.walker.pushed = chainBodies bodyOf blockOf head k
  | .bodyQueued =>
    k + 1 < N ∧ P.mpc = .recv ∧ P.i = k ∧ P.block = chain blockOf head k ∧
    P.tasks = chainTasks blockOf head (k + 1) ∧ P.sent = chainHashes blockOf head (k + 1) ∧
    P.received = chainBodies bodyOf blockOf head k ∧
    P.hashes = [] ∧ P.bodies = [bodyOf (chain blockOf head k).PrevHash] ∧ P.wpc = .recv ∧
    P.walker.requested = chainHashes blockOf head (k + 1) ∧
    P.walker.pushed = chainBodies bodyOf blockOf head (k + 1)
  | .bodyDecoded =>
    k + 1 < N ∧ P.mpc = .send ∧ P.i = k ∧ P.block = chain blockOf head (k + 1) ∧
    P.tasks = chainTasks blockOf head (k + 1) ∧ P.sent = chainHashes blockOf head (k + 1) ∧
    P.received = chainBodies bodyOf blockOf head (k + 1) ∧
    P.hashes = [] ∧ P.bodies = [] ∧ P.wpc = .recv ∧
    P.walker.requested = chainHashes blockOf head (k + 1) ∧
    P.walker.pushed = chainBodies bodyOf blockOf head (k + 1)
  | .doneQueued =>
    k + 1 = N ∧ P.mpc = .done ∧ P.i = k ∧ P.block = chain blockOf head k ∧
    P.tasks = chainTasks blockOf head (k + 1) ∧ P.sent = chainHashes blockOf head (k + 1) ∧
    P.received = chainBodies bodyOf blockOf head k ∧
    P.hashes = [(chain blockOf head k).PrevHash] ∧ P.bodies = [] ∧ P.wpc = .recv ∧
    P.walker.requested = chainHashes blockOf head k ∧
    P.walker.pushed = chainBodies bodyOf blockOf head k
  | .doneFetched =>
    k + 1 = N ∧ P.mpc = .done ∧ P.i = k ∧ P.block = chain blockOf head k ∧
    P.tasks = chainTasks blockOf head (k + 1) ∧ P.sent = chainHashes blockOf head (k + 1) ∧
    P.received = chainBodies bodyOf blockOf head k ∧
    P.hashes = [] ∧ P.bodies = [] ∧ P.wpc = .push ∧
    P.walker.body = bodyOf (chain blockOf head k).PrevHash ∧
    P.walker.requested = chainHashes blockOf head (k + 1) ∧
    P.walker.pushed = chainBodies bodyOf blockOf head k
  | .donePushed =>
    k + 1 = N ∧ P.mpc = .done ∧ P.i = k ∧ P.block = chain blockOf head k ∧
    P.tasks = chainTasks blockOf head (k + 1) ∧ P.sent = chainHashes blockOf head (k + 1) ∧
    P.received = chainBodies bodyOf blockOf head k ∧
    P.hashes = [] ∧ P.bodies = [bodyOf (chain blockOf head k).PrevHash] ∧ P.wpc = .recv ∧
    P.walker.requested = chainHashes blockOf head (k + 1) ∧
    P.walker.pushed = chainBodies bodyOf blockOf head (k + 1)

/-- The pipeline is at some stage of a run without failure. -/
def Inv {σ ε : Type} (bodyOf : String → Bytes) (blockOf : String → BlockContent)
    (head : BlockContent) (N : Nat) (P : Pipeline σ ε) : Prop :=
  ∃ st k, AtStage bodyOf blockOf head N st k P
/-! ## Lemmas on the ledger -/

theorem lookup_append_of_some {l l' : List (String × Nat)} {k : String} {p : Nat}
    (h : l.lookup k = some p) : (l ++ l').lookup k = some p := by
  induction l with
  | nil => simp at h
  | cons e l ih =>
    obtain ⟨k', q⟩ := e
    simp only [List.cons_append, List.lookup_cons] at h ⊢
    split <;> simp_all

theorem lookup_append_of_none {l l' : List (String × Nat)} {k : String}
    (h : l.lookup k = none) : (l ++ l').lookup k = l'.lookup k := by
  induction l with
  | nil => simp
  | cons e l ih =>
    obtain ⟨k', q⟩ := e
    simp only [List.cons_append, List.lookup_cons] at h ⊢
    cases hk : (k == k') with
    | true => simp [hk] at h
    | false => simp only [hk] at h ⊢; exact ih h

theorem deref_alloc_new (L : Ledger) (v : Int) :
    (L.alloc v).2.deref (L.alloc v).1 = v := by
  simp [Ledger.alloc, Ledger.deref, List.getD_eq_getElem?_getD]

theorem wallets_alloc (L : Ledger) (v : Int) : (L.alloc v).2.wallets = L.wallets := rfl

theorem deref_alloc_zero (L : Ledger) (p : Nat) : (L.alloc 0).2.deref p = L.deref p := by
  simp only [Ledger.alloc, Ledger.deref, List.getD_eq_getElem?_getD]
  rcases Nat.lt_trichotomy p L.heap.length with h | h | h
  · rw [List.getElem?_append_left h]
  · subst h; simp
  · rw [List.getElem?_eq_none (by simp; omega), List.getElem?_eq_none (by omega)]

theorem entries_alloc_zero (L : Ledger) : (L.alloc 0).2.entries = L.entries := by
  simp only [Ledger.entries, wallets_alloc, deref_alloc_zero]

theorem Aliased.value_eq {L : Ledger} {a b : String} (h : Aliased L a b) :
    L.value a = L.value b := by
  obtain ⟨p, ha, hb⟩ := h
  simp [Ledger.value, ha, hb]

theorem Aliased.insertOrAdd {L : Ledger} {a b : String} (h : Aliased L a b)
    (k : String) (val : Nat) : Aliased (insertOrAdd L k val) a b := by
  obtain ⟨p, ha, hb⟩ := h
  unfold GetBlock.insertOrAdd
  split
  · exact ⟨p, lookup_append_of_some ha, lookup_append_of_some hb⟩
  · exact ⟨p, ha, hb⟩

theorem Aliased.checkTransactions (setString : String → Int) {a b : String}
    (txs : List Transaction) :
    ∀ {L : Ledger}, Aliased L a b → Aliased (checkTransactions setString L txs) a b := by
  induction txs with
  | nil => intro L h; exact h
  | cons tx txs ih =>
    intro L h
    have h0 : Aliased (L.alloc (setString tx.Value)).2 a b := h
    simp only [GetBlock.checkTransactions]
    split
    · exact h0
    · exact ih ((h0.insertOrAdd _ _).insertOrAdd _ _)

theorem Aliased.mergeBlocks (setString : String → Int) {a b : String}
    (blocks : List (List Transaction)) :
    ∀ {L : Ledger}, Aliased L a b → Aliased (mergeBlocks setString L blocks) a b := by
  induction blocks with
  | nil => intro L h; exact h
  | cons blk blocks ih =>
    intro L h
    exact ih (h.checkTransactions setString blk)

theorem checkTransactions_takeWhile_entries (setString : String → Int)
    (txs : List Transaction) : ∀ L : Ledger,
    (checkTransactions setString L txs).entries =
      (checkTransactions setString L
        (txs.takeWhile (fun tx => decide (setString tx.Value ≠ 0)))).entries := by
  induction txs with
  | nil => intro L; rfl
  | cons tx txs ih =>
    intro L
    by_cases hz : setString tx.Value = 0
    · simp only [GetBlock.checkTransactions, deref_alloc_new, hz, if_true, ne_eq,
        not_true_eq_false, decide_False, List.takeWhile_cons, Bool.false_eq_true, if_false]
      exact entries_alloc_zero L
    · simp only [GetBlock.checkTransactions, deref_alloc_new, hz, if_false, ne_eq,
        not_false_eq_true, decide_True, List.takeWhile_cons, if_true]
      exact ih _

/-! ## Claims on the aggregation -/

/-- C1, evaluated on the code: merging `(A→B, 3)` and `(B→A, 4)` into an empty
ledger leaves `A = 11` and `B = 11`, where the accounting of the claim gives
`7` and `7`.  The first transaction stores one object under both keys, so each
of the two additions of the second transaction reaches both wallets. -/
theorem accumulation_run_shares_object :
    (checkTransactions setString0 Ledger.empty
      [⟨"A", "B", "3"⟩, ⟨"B", "A", "4"⟩]).entries = [("A", 11), ("B", 11)] ∧
    (checkTransactions setString0 Ledger.empty
      [⟨"A", "B", "3"⟩, ⟨"B", "A", "4"⟩]).wallets = [("A", 0), ("B", 0)] ∧
    specValue setString0 Ledger.empty [⟨"A", "B", "3"⟩, ⟨"B", "A", "4"⟩] "A" = 7 ∧
    specValue setString0 Ledger.empty [⟨"A", "B", "3"⟩, ⟨"B", "A", "4"⟩] "B" = 7 := by
  decide

/-- C2, evaluated on the code: the blocks `[(A→B, 3)]` and `[(A→C, 4)]` merged
into an empty ledger in the two possible orders give different ledgers: `B`
ends at `7` in one order and at `3` in the other, `C` at `4` and at `7`. -/
theorem merge_order_changes_ledger :
    (mergeBlocks setString0 Ledger.empty
      [[⟨"A", "B", "3"⟩], [⟨"A", "C", "4"⟩]]).entries = [("A", 7), ("B", 7), ("C", 4)] ∧
    (mergeBlocks setString0 Ledger.empty
      [[⟨"A", "C", "4"⟩], [⟨"A", "B", "3"⟩]]).entries = [("A", 7), ("C", 7), ("B", 3)] ∧
    (mergeBlocks setString0 Ledger.empty [[⟨"A", "B", "3"⟩], [⟨"A", "C", "4"⟩]]).value "B" ≠
      (mergeBlocks setString0 Ledger.empty [[⟨"A", "C", "4"⟩], [⟨"A", "B", "3"⟩]]).value "B" := by
  decide

/-- C3: `checkTransactions` stops at the first transaction whose value parses
to zero: for every parser, ledger and transaction list, the entries after the
run are the entries after merging only the transactions before the first
zero-valued one.  On `[(A→B, 5), (C→D, 0), (E→F, 7)]` and an empty ledger the
entries are exactly `A = 5` and `B = 5`. -/
theorem checkTransactions_stops_at_first_zero :
    (∀ (setString : String → Int) (L : Ledger) (txs : List Transaction),
      (checkTransactions setString L txs).entries =
        (checkTransactions setString L
          (txs.takeWhile (fun tx => decide (setString tx.Value ≠ 0)))).entries) ∧
    (checkTransactions setString0 Ledger.empty
      [⟨"A", "B", "5"⟩, ⟨"C", "D", "0"⟩, ⟨"E", "F", "7"⟩]).entries = [("A", 5), ("B", 5)] :=
  ⟨fun setString L txs => checkTransactions_takeWhile_entries setString txs L, by decide⟩

theorem insertOrAdd_of_none {L : Ledger} {k : String} (val : Nat)
    (h : L.lookup k = none) :
    insertOrAdd L k val = { L with wallets := L.wallets ++ [(k, val)] } := by
  simp only [insertOrAdd, h]

theorem insertOrAdd_of_some {L : Ledger} {k : String} {p : Nat} (val : Nat)
    (h : L.lookup k = some p) : insertOrAdd L k val = L.addInPlace p val := by
  simp only [insertOrAdd, h]

theorem lookup_insert_self {L : Ledger} {k : String} (val : Nat)
    (h : L.lookup k = none) :
    (Ledger.mk (L.wallets ++ [(k, val)]) L.heap).lookup k = some val := by
  simp only [Ledger.lookup] at h ⊢
  rw [lookup_append_of_none h]
  simp [List.lookup]

theorem lookup_insert_other {L : Ledger} {k k' : String} (val : Nat)
    (h : L.lookup k = none) (hne : k ≠ k') :
    (Ledger.mk (L.wallets ++ [(k', val)]) L.heap).lookup k = none := by
  have hbeq : (k == k') = false := by simpa using hne
  simp only [Ledger.lookup] at h ⊢
  rw [lookup_append_of_none h]
  simp [List.lookup, hbeq]

theorem mergeTx_fresh_pair (L : Ledger) (tx : Transaction) (val : Nat)
    (hne : tx.From ≠ tx.To) (hfrom : L.lookup tx.From = none)
    (hto : L.lookup tx.To = none) :
    (mergeTx L tx val).lookup tx.From = some val ∧
      (mergeTx L tx val).lookup tx.To = some val := by
  have h2 := lookup_insert_other val hto (Ne.symm hne)
  have h3 := lookup_insert_self val hfrom
  unfold mergeTx
  rw [insertOrAdd_of_none val hfrom, insertOrAdd_of_none val h2]
  exact ⟨lookup_append_of_some h3, lookup_insert_self val h2⟩

/-- C9: when `checkTransactions` processes a transaction with a non-zero value
whose two distinct keys are both absent, the critical section binds both keys
to the object allocated for that transaction; after the rest of the block and
after every later sequence of merges the two keys are still bound to one object
and hold equal values.  Merging `[(A→B, v), (A→C, w)]` into an empty ledger
leaves `B = v + w`. -/
theorem fresh_pair_shares_object (setString : String → Int) (L : Ledger)
    (tx : Transaction) (rest : List Transaction) (blocks : List (List Transaction))
    (hv : setString tx.Value ≠ 0) (hne : tx.From ≠ tx.To)
    (hfrom : L.lookup tx.From = none) (hto : L.lookup tx.To = none) :
    ((mergeTx (L.alloc (setString tx.Value)).2 tx (L.alloc (setString tx.Value)).1).lookup
        tx.From = some (L.alloc (setString tx.Value)).1 ∧
      (mergeTx (L.alloc (setString tx.Value)).2 tx (L.alloc (setString tx.Value)).1).lookup
        tx.To = some (L.alloc (setString tx.Value)).1) ∧
    (Aliased (mergeBlocks setString (checkTransactions setString L (tx :: rest)) blocks)
        tx.From tx.To ∧
      (mergeBlocks setString (checkTransactions setString L (tx :: rest)) blocks).value tx.From =
        (mergeBlocks setString (checkTransactions setString L (tx :: rest)) blocks).value
          tx.To) ∧
    (∀ C w : String, C ≠ tx.From → C ≠ tx.To → setString w ≠ 0 →
      (checkTransactions setString Ledger.empty [tx, ⟨tx.From, C, w⟩]).value tx.To =
        some (setString tx.Value + setString w)) := by
  have hpair := mergeTx_fresh_pair (L.alloc (setString tx.Value)).2 tx
    (L.alloc (setString tx.Value)).1 hne hfrom hto
  have hal : Aliased (mergeBlocks setString (checkTransactions setString L (tx :: rest)) blocks)
      tx.From tx.To := by
    apply Aliased.mergeBlocks
    simp only [GetBlock.checkTransactions, deref_alloc_new, hv, if_false]
    apply Aliased.checkTransactions
    exact ⟨_, hpair.1, hpair.2⟩
  refine ⟨hpair, ⟨hal, hal.value_eq⟩, ?_⟩
  intro C w hCA hCB hw
  have h1 : (tx.To == tx.From) = false := by simpa using fun h => hne h.symm
  have h2 : (C == tx.From) = false := by simpa using hCA
  have h3 : (C == tx.To) = false := by simpa using hCB
  simp [GetBlock.checkTransactions, mergeTx, insertOrAdd, Ledger.alloc, Ledger.deref,
    Ledger.lookup, Ledger.empty, Ledger.addInPlace, Ledger.value, List.lookup, hv, hw, h1, h2, h3]

/-- C9 at a concrete input: `(A→B, 5)` into an empty ledger, followed by the
block `[(A→C, 7)]`. -/
theorem fresh_pair_shares_object_witness :
    (Aliased (mergeBlocks setString0 (checkTransactions setString0 Ledger.empty
        [⟨"A", "B", "5"⟩]) [[⟨"A", "C", "7"⟩]]) "A" "B") ∧
    (checkTransactions setString0 Ledger.empty
        [⟨"A", "B", "5"⟩, ⟨"A", "C", "7"⟩]).value "B" = some 12 := by
  have h := fresh_pair_shares_object setString0 Ledger.empty ⟨"A", "B", "5"⟩ []
    [[⟨"A", "C", "7"⟩]] (by decide) (by decide) (by decide) (by decide)
  exact ⟨h.2.1.1, h.2.2 "C" "7" (by decide) (by decide) (by decide)⟩

/-- One step of the scan of `findMax`. -/
theorem findMax_step (L : Ledger) (acc : String × Int) (e : String × Nat)
    (es : List (String × Nat)) :
    (e :: es).foldl
        (fun acc e => if acc.2 < L.deref e.2 then (e.1, L.deref e.2) else acc) acc =
      es.foldl (fun acc e => if acc.2 < L.deref e.2 then (e.1, L.deref e.2) else acc)
        (if acc.2 < L.deref e.2 then (e.1, L.deref e.2) else acc) := rfl

/-- Invariant of the scan from an accumulator `acc`: the result bounds every
value met, and either nothing exceeded `acc`, or the result is the first
binding of `order` that holds the largest value. -/
theorem scan_spec (L : Ledger) (order : List (String × Nat)) :
    ∀ acc : String × Int,
      let r := order.foldl
        (fun acc e => if acc.2 < L.deref e.2 then (e.1, L.deref e.2) else acc) acc
      acc.2 ≤ r.2 ∧ (∀ e ∈ order, L.deref e.2 ≤ r.2) ∧
      ((r = acc ∧ ∀ e ∈ order, L.deref e.2 ≤ acc.2) ∨
        (acc.2 < r.2 ∧ ∃ (i : Nat) (e : String × Nat), order[i]? = some e ∧ e.1 = r.1 ∧ L.deref e.2 = r.2 ∧
          ∀ (j : Nat) (e' : String × Nat), j < i → order[j]? = some e' → L.deref e'.2 < r.2)) := by
  induction order with
  | nil => intro acc; simp
  | cons e es ih =>
    intro acc
    simp only [findMax_step]
    by_cases hlt : acc.2 < L.deref e.2
    · simp only [hlt, if_true]
      obtain ⟨h1, h2, h3⟩ := ih (e.1, L.deref e.2)
      simp only at h1 h2 h3
      refine ⟨le_trans (le_of_lt hlt) h1, ?_, Or.inr ⟨lt_of_lt_of_le hlt h1, ?_⟩⟩
      · intro e' he'
        rcases List.mem_cons.1 he' with rfl | he'
        · exact h1
        · exact h2 e' he'
      · rcases h3 with ⟨hr, _⟩ | ⟨hlt', i, e', hi, hk, hd, hfirst⟩
        · refine ⟨0, e, by simp, by rw [hr], by rw [hr], ?_⟩
          intro j e' hj; omega
        · refine ⟨i + 1, e', by simpa using hi, hk, hd, ?_⟩
          intro j e'' hj hje
          cases j with
          | zero =>
            simp only [List.getElem?_cons_zero, Option.some.injEq] at hje
            subst hje; exact hlt'
          | succ j =>
            simp only [List.getElem?_cons_succ] at hje
            exact hfirst j e'' (by omega) hje
    · simp only [hlt, if_false]
      obtain ⟨h1, h2, h3⟩ := ih acc
      have hle : L.deref e.2 ≤ acc.2 := not_lt.1 hlt
      refine ⟨h1, ?_, ?_⟩
      · intro e' he'
        rcases List.mem_cons.1 he' with rfl | he'
        · exact le_trans hle h1
        · exact h2 e' he'
      · rcases h3 with ⟨hr, hall⟩ | ⟨hlt', i, e', hi, hk, hd, hfirst⟩
        · left
          refine ⟨hr, ?_⟩
          intro e' he'
          rcases List.mem_cons.1 he' with rfl | he'
          · exact hle
          · exact hall e' he'
        · right
          refine ⟨hlt', i + 1, e', by simpa using hi, hk, hd, ?_⟩
          intro j e'' hj hje
          cases j with
          | zero =>
            simp only [List.getElem?_cons_zero, Option.some.injEq] at hje
            subst hje; exact lt_of_le_of_lt hle hlt'
          | succ j =>
            simp only [List.getElem?_cons_succ] at hje
            exact hfirst j e'' (by omega) hje

theorem lookup_of_mem_nodup {l : List (String × Nat)} {k : String} {p : Nat}
    (hnd : (l.map Prod.fst).Nodup) (hmem : (k, p) ∈ l) : l.lookup k = some p := by
  induction l with
  | nil => simp at hmem
  | cons e l ih =>
    obtain ⟨k', q⟩ := e
    simp only [List.map_cons, List.nodup_cons, List.mem_map, Prod.exists,
      exists_and_right, exists_eq_right, not_exists] at hnd
    rcases List.mem_cons.1 hmem with h | h
    · cases h; simp [List.lookup]
    · have hne : (k == k') = false := by
        simp only [beq_eq_false_iff_ne, ne_eq]
        rintro rfl
        exact hnd.1 p h
      simp only [List.lookup, hne]
      exact ih hnd.2 h

/-- C5: on a ledger with pairwise distinct keys and a strictly positive entry,
for every order in which the bindings are ranged over, the scan of `main`
reports a value that bounds every ledger value, a wallet that is a key holding
exactly that value, and this wallet is the first binding in the iteration order
holding it (every binding before it holds strictly less). -/
theorem findMax_reports_first_maximum (L : Ledger) (order : List (String × Nat))
    (hperm : order.Perm L.wallets) (hnd : L.KeysNodup)
    (hpos : ∃ e ∈ L.wallets, 0 < L.deref e.2) :
    (∀ e ∈ L.wallets, L.deref e.2 ≤ (findMax L order).2) ∧
    L.value (findMax L order).1 = some (findMax L order).2 ∧
    (∃ (i : Nat) (e : String × Nat), order[i]? = some e ∧ e.1 = (findMax L order).1 ∧
      L.deref e.2 = (findMax L order).2 ∧
      ∀ (j : Nat) (e' : String × Nat), j < i → order[j]? = some e' → L.deref e'.2 < (findMax L order).2) := by
  obtain ⟨h1, h2, h3⟩ := scan_spec L order ("", 0)
  simp only at h1 h2 h3
  change _ ≤ (findMax L order).2 at h1
  change ∀ e ∈ order, _ ≤ (findMax L order).2 at h2
  change (findMax L order = _ ∧ _) ∨ (_ < (findMax L order).2 ∧ ∃ (i : Nat) (e : String × Nat), _ ∧
    e.1 = (findMax L order).1 ∧ _ = (findMax L order).2 ∧
      ∀ (j : Nat) (e' : String × Nat), j < i → order[j]? = some e' → L.deref e'.2 < (findMax L order).2) at h3
  have hfirst : ∃ (i : Nat) (e : String × Nat), order[i]? = some e ∧ e.1 = (findMax L order).1 ∧
      L.deref e.2 = (findMax L order).2 ∧
      ∀ (j : Nat) (e' : String × Nat), j < i → order[j]? = some e' → L.deref e'.2 < (findMax L order).2 := by
    rcases h3 with ⟨_, hall⟩ | ⟨_, h⟩
    · obtain ⟨e, he, hpe⟩ := hpos
      have := hall e (hperm.mem_iff.2 he)
      exact absurd (lt_of_lt_of_le hpe this) (lt_irrefl _)
    · exact h
  refine ⟨fun e he => h2 e (hperm.mem_iff.2 he), ?_, hfirst⟩
  obtain ⟨i, e, hi, hk, hd, _⟩ := hfirst
  have hmem : e ∈ L.wallets := hperm.mem_iff.1 (List.getElem?_mem hi)
  have hl : L.wallets.lookup e.1 = some e.2 := lookup_of_mem_nodup hnd hmem
  rw [← hk, ← hd]
  simp [Ledger.value, Ledger.lookup, hl]

/-- C5 on the ledger `{A: 10, B: 10, C: 7}` ranged over in the order `C, B, A`:
the reported value is `10` and the wallet is `B`, the first of the tied ones. -/
theorem findMax_reports_first_maximum_witness :
    (findMax ⟨[("A", 0), ("B", 1), ("C", 2)], [10, 10, 7]⟩
      [("C", 2), ("B", 1), ("A", 0)]).2 = 10 ∧
    (findMax ⟨[("A", 0), ("B", 1), ("C", 2)], [10, 10, 7]⟩
      [("C", 2), ("B", 1), ("A", 0)]).1 = "B" ∧
    Ledger.value ⟨[("A", 0), ("B", 1), ("C", 2)], [10, 10, 7]⟩
      (findMax ⟨[("A", 0), ("B", 1), ("C", 2)], [10, 10, 7]⟩
        [("C", 2), ("B", 1), ("A", 0)]).1 =
      some (findMax ⟨[("A", 0), ("B", 1), ("C", 2)], [10, 10, 7]⟩
        [("C", 2), ("B", 1), ("A", 0)]).2 :=
  ⟨by decide, by decide,
    (findMax_reports_first_maximum ⟨[("A", 0), ("B", 1), ("C", 2)], [10, 10, 7]⟩
      [("C", 2), ("B", 1), ("A", 0)] (by decide) (by decide)
      ⟨("A", 0), by decide, by decide⟩).2.1⟩

/-! ## Claims on the fetcher and the walker -/

theorem contains_iff_occurs (s substr : Bytes) : contains s substr = true ↔ substr <:+: s := by
  induction s with
  | nil => simp [contains, List.isPrefixOf_iff_prefix]
  | cons c s ih =>
    simp only [contains, Bool.or_eq_true, List.isPrefixOf_iff_prefix, ih, List.infix_cons_iff]

/-- C7: when the transport has read the body without error, `postRequest`
returns an error exactly when the literal `error` occurs somewhere in the body
(and the error is the one built from that body); in the other case it returns
the body unchanged with no error. -/
theorem postRequest_error_iff_contains {σ ε : Type}
    (roundTrip : σ → String → Except ε Bytes × σ) (s s' : σ) (method params : String)
    (body : Bytes) (hread : roundTrip s (requestBody method params) = (.ok body, s')) :
    ((∃ e, (postRequest roundTrip s method params).1 = .error e) ↔
      ∃ pre suf, body = pre ++ errorLiteral ++ suf) ∧
    ((∃ pre suf, body = pre ++ errorLiteral ++ suf) →
      postRequest roundTrip s method params = (.error (.response body), s')) ∧
    ((¬ ∃ pre suf, body = pre ++ errorLiteral ++ suf) →
      postRequest roundTrip s method params = (.ok body, s')) := by
  have hinf : contains body errorLiteral = true ↔ ∃ pre suf, body = pre ++ errorLiteral ++ suf := by
    rw [contains_iff_occurs]
    constructor
    · rintro ⟨pre, suf, h⟩; exact ⟨pre, suf, h.symm⟩
    · rintro ⟨pre, suf, h⟩; exact ⟨pre, suf, h.symm⟩
  by_cases hc : contains body errorLiteral = true
  · have hpost : postRequest roundTrip s method params = (.error (.response body), s') := by
      simp only [postRequest, hread, hc, if_true]
    refine ⟨⟨fun _ => hinf.1 hc, fun _ => ⟨_, by rw [hpost]⟩⟩, fun _ => hpost,
      fun h => absurd (hinf.1 hc) h⟩
  · have hpost : postRequest roundTrip s method params = (.ok body, s') := by
      simp only [postRequest, hread, hc, if_false]
      simp
    refine ⟨⟨?_, fun h => absurd (hinf.2 h) hc⟩, fun h => absurd (hinf.2 h) hc, fun _ => hpost⟩
    rintro ⟨e, he⟩
    rw [hpost] at he
    cases he

/-- C7 on two bodies: `x error y` is answered by an error, `ok` is returned
unchanged. -/
theorem postRequest_error_iff_contains_witness :
    postRequest (fun (s : Unit) _ => ((Except.ok [120, 101, 114, 114, 111, 114, 121] :
        Except String Bytes), s)) () methodBlockNumber "" =
      (.error (.response [120, 101, 114, 114, 111, 114, 121]), ()) ∧
    postRequest (fun (s : Unit) _ => ((Except.ok [111, 107] : Except String Bytes), s)) ()
        methodBlockNumber "" = (.ok [111, 107], ()) :=
  ⟨(postRequest_error_iff_contains
      (fun (s : Unit) _ => ((Except.ok [120, 101, 114, 114, 111, 114, 121] :
        Except String Bytes), s)) () () methodBlockNumber "" _ rfl).2.1
      ⟨[120], [121], by decide⟩,
    (postRequest_error_iff_contains
      (fun (s : Unit) _ => ((Except.ok [111, 107] : Except String Bytes), s)) () ()
      methodBlockNumber "" _ rfl).2.2
      (by
        rintro ⟨pre, suf, h⟩
        have hlen := congrArg List.length h
        simp [errorLiteral] at hlen
        omega)⟩

theorem attempts_succ_ok {σ ε : Type} (roundTrip : σ → String → Except ε Bytes × σ)
    (hash : String) (n : Nat) (w : Walker σ ε) (b : Bytes) (s1 : σ)
    (h : fetchByHash roundTrip w.world hash = (.ok b, s1)) :
    attempts roundTrip hash (n + 1) w =
      ⟨s1, b, none, w.requested ++ [hash], w.pushed⟩ := by
  simp [attempts, attempt, h]

theorem attempts_succ_error {σ ε : Type} (roundTrip : σ → String → Except ε Bytes × σ)
    (hash : String) (n : Nat) (w : Walker σ ε) (e : PostError ε) (s1 : σ)
    (h : fetchByHash roundTrip w.world hash = (.error e, s1)) :
    attempts roundTrip hash (n + 1) w =
      attempts roundTrip hash n ⟨s1, [], some e, w.requested ++ [hash], w.pushed⟩ := by
  simp [attempts, attempt, h]

/-- C6: for a hash read by `getBlockBodyByHash`, whatever the calls answer:
the loop makes between one and three calls, all for that hash, and pushes
nothing by itself; when the first success among the three possible outcomes is
at position `k`, exactly `k + 1` calls are made, the body of that success is
pushed and the walk goes on with the next hash; when all three fail, the walk
ends on the third error, with no body pushed for the hash and no call for any
later hash. -/
theorem walker_three_attempts {σ ε : Type} (roundTrip : σ → String → Except ε Bytes × σ)
    (hash : String) (hashes : List String) (w : Walker σ ε) :
    (∃ n, 1 ≤ n ∧ n ≤ 3 ∧
      (attempts roundTrip hash 3 w).requested = w.requested ++ List.replicate n hash ∧
      (attempts roundTrip hash 3 w).pushed = w.pushed) ∧
    (∀ (k : Nat) (b : Bytes), (outcomes roundTrip hash 3 w.world)[k]? = some (.ok b) →
      (∀ j : Nat, j < k → ∃ e, (outcomes roundTrip hash 3 w.world)[j]? = some (.error e)) →
      getBlockBodyByHash roundTrip (hash :: hashes) w =
        getBlockBodyByHash roundTrip hashes
          ⟨worldAfter roundTrip hash (k + 1) w.world, b, none,
            w.requested ++ List.replicate (k + 1) hash, w.pushed ++ [b]⟩) ∧
    (∀ e : PostError ε, (outcomes roundTrip hash 3 w.world)[2]? = some (.error e) →
      (∀ j : Nat, j < 2 → ∃ e', (outcomes roundTrip hash 3 w.world)[j]? = some (.error e')) →
      getBlockBodyByHash roundTrip (hash :: hashes) w =
        (⟨worldAfter roundTrip hash 3 w.world, [], some e,
          w.requested ++ List.replicate 3 hash, w.pushed⟩, some e)) := by
  rcases h1 : fetchByHash roundTrip w.world hash with ⟨r1, s1⟩
  rcases h2 : fetchByHash roundTrip s1 hash with ⟨r2, s2⟩
  rcases h3 : fetchByHash roundTrip s2 hash with ⟨r3, s3⟩
  have ho : outcomes roundTrip hash 3 w.world = [r1, r2, r3] := by
    simp [outcomes, h1, h2, h3]
  have hw1 : worldAfter roundTrip hash 1 w.world = s1 := by simp [worldAfter, h1]
  have hw2 : worldAfter roundTrip hash 2 w.world = s2 := by simp [worldAfter, h1, h2]
  have hw3 : worldAfter roundTrip hash 3 w.world = s3 := by simp [worldAfter, h1, h2, h3]
  rw [ho]
  cases r1 with
  | ok b1 =>
    have ha := attempts_succ_ok roundTrip hash 2 w b1 s1 h1
    refine ⟨⟨1, le_refl _, by omega, by rw [ha]; rfl, by rw [ha]⟩, ?_, ?_⟩
    · intro k b hk hbefore
      cases k with
      | zero =>
        simp only [List.getElem?_cons_zero, Option.some.injEq, Except.ok.injEq] at hk
        subst hk
        simp only [getBlockBodyByHash, ha, hw1]
        rfl
      | succ k =>
        obtain ⟨e, he⟩ := hbefore 0 (by omega)
        simp at he
    · intro e _ hbefore
      obtain ⟨e', he'⟩ := hbefore 0 (by omega)
      simp at he'
  | error e1 =>
    have ha1 := attempts_succ_error roundTrip hash 2 w e1 s1 h1
    cases r2 with
    | ok b2 =>
      have ha : attempts roundTrip hash 3 w =
          ⟨s2, b2, none, w.requested ++ [hash, hash], w.pushed⟩ := by
        rw [ha1, attempts_succ_ok roundTrip hash 1 _ b2 s2 h2]; simp
      refine ⟨⟨2, by omega, by omega, by rw [ha]; rfl, by rw [ha]⟩, ?_, ?_⟩
      · intro k b hk hbefore
        match k, hk, hbefore with
        | 0, hk, _ => simp at hk
        | 1, hk, _ =>
          simp only [List.getElem?_cons_succ, List.getElem?_cons_zero, Option.some.injEq,
            Except.ok.injEq] at hk
          subst hk
          simp only [getBlockBodyByHash, ha, hw2]
          rfl
        | k + 2, _, hbefore =>
          obtain ⟨e, he⟩ := hbefore 1 (by omega)
          simp at he
      · intro e _ hbefore
        obtain ⟨e', he'⟩ := hbefore 1 (by omega)
        simp at he'
    | error e2 =>
      have ha2 := attempts_succ_error roundTrip hash 1
        (⟨s1, [], some e1, w.requested ++ [hash], w.pushed⟩ : Walker σ ε) e2 s2 h2
      cases r3 with
      | ok b3 =>
        have ha : attempts roundTrip hash 3 w =
            ⟨s3, b3, none, w.requested ++ [hash, hash, hash], w.pushed⟩ := by
          rw [ha1, ha2, attempts_succ_ok roundTrip hash 0 _ b3 s3 h3]; simp
        refine ⟨⟨3, by omega, le_refl _, by rw [ha]; rfl, by rw [ha]⟩, ?_, ?_⟩
        · intro k b hk hbefore
          match k, hk, hbefore with
          | 0, hk, _ => simp at hk
          | 1, hk, _ => simp at hk
          | 2, hk, _ =>
            simp only [List.getElem?_cons_succ, List.getElem?_cons_zero, Option.some.injEq,
              Except.ok.injEq] at hk
            subst hk
            simp only [getBlockBodyByHash, ha, hw3]
            rfl
          | k + 3, hk, _ => simp at hk
        · intro e he _
          simp at he
      | error e3 =>
        have ha : attempts roundTrip hash 3 w =
            ⟨s3, [], some e3, w.requested ++ [hash, hash, hash], w.pushed⟩ := by
          rw [ha1, ha2, attempts_succ_error roundTrip hash 0 _ e3 s3 h3]; simp [attempts]
        refine ⟨⟨3, by omega, le_refl _, by rw [ha]; rfl, by rw [ha]⟩, ?_, ?_⟩
        · intro k b hk _
          match k, hk with
          | 0, hk => simp at hk
          | 1, hk => simp at hk
          | 2, hk => simp at hk
          | k + 3, hk => simp at hk
        · intro e he _
          simp only [List.getElem?_cons_succ, List.getElem?_cons_zero, Option.some.injEq,
            Except.error.injEq] at he
          subst he
          simp only [getBlockBodyByHash, ha, hw3]
          rfl

/-- C6 on a transport whose first two answers are errors and whose third is
the body `[1]`, and on one that always fails: three calls and the body pushed;
three calls, the error, and no call for the second hash. -/
theorem walker_three_attempts_witness :
    (getBlockBodyByHash
        (fun (s : Nat) _ => if s < 2 then ((Except.error "reset" : Except String Bytes), s + 1)
          else (.ok [1], s + 1))
        ["h1"] ⟨0, [], none, [], []⟩).1.requested = ["h1", "h1", "h1"] ∧
    (getBlockBodyByHash
        (fun (s : Nat) _ => if s < 2 then ((Except.error "reset" : Except String Bytes), s + 1)
          else (.ok [1], s + 1))
        ["h1"] ⟨0, [], none, [], []⟩).1.pushed = [[1]] ∧
    getBlockBodyByHash
        (fun (s : Nat) _ => ((Except.error "reset" : Except String Bytes), s + 1))
        ["h1", "h2"] ⟨0, [], none, [], []⟩ =
      (⟨3, [], some (.transport "reset"), ["h1", "h1", "h1"], []⟩,
        some (.transport "reset")) := by
  have hok := (walker_three_attempts
    (fun (s : Nat) _ => if s < 2 then ((Except.error "reset" : Except String Bytes), s + 1)
      else (.ok [1], s + 1)) "h1" [] ⟨0, [], none, [], []⟩).2.1 2 [1] rfl
    (by intro j hj; interval_cases j <;> exact ⟨.transport "reset", rfl⟩)
  have hfail := (walker_three_attempts
    (fun (s : Nat) _ => ((Except.error "reset" : Except String Bytes), s + 1)) "h1" ["h2"]
    ⟨0, [], none, [], []⟩).2.2 (.transport "reset") rfl
    (by intro j hj; interval_cases j <;> exact ⟨.transport "reset", rfl⟩)
  refine ⟨by rw [hok]; rfl, by rw [hok]; rfl, hfail⟩

/-! ## Claims on the pipeline -/

theorem chainTasks_succ (blockOf : String → BlockContent) (head : BlockContent) (n : Nat) :
    chainTasks blockOf head (n + 1) =
      chainTasks blockOf head n ++ [(chain blockOf head n).Transactions] := by
  simp [chainTasks, List.range_succ]

theorem chainHashes_succ (blockOf : String → BlockContent) (head : BlockContent) (n : Nat) :
    chainHashes blockOf head (n + 1) =
      chainHashes blockOf head n ++ [(chain blockOf head n).PrevHash] := by
  simp [chainHashes, List.range_succ]

theorem chainBodies_succ (bodyOf : String → Bytes) (blockOf : String → BlockContent)
    (head : BlockContent) (n : Nat) :
    chainBodies bodyOf blockOf head (n + 1) =
      chainBodies bodyOf blockOf head n ++ [bodyOf (chain blockOf head n).PrevHash] := by
  simp [chainBodies, List.range_succ]

theorem attempts_of_fetch_ok {σ ε : Type} (roundTrip : σ → String → Except ε Bytes × σ)
    (bodyOf : String → Bytes)
    (hfetch : ∀ s hash, (fetchByHash roundTrip s hash).1 = .ok (bodyOf hash))
    (hash : String) (w : Walker σ ε) :
    attempts roundTrip hash 3 w =
      ⟨(fetchByHash roundTrip w.world hash).2, bodyOf hash, none, w.requested ++ [hash],
        w.pushed⟩ :=
  attempts_succ_ok roundTrip hash 2 w (bodyOf hash) _ (Prod.ext (hfetch _ _) rfl)

section Stages

variable {σ ε : Type} (roundTrip : σ → String → Except ε Bytes × σ)
  (decode : Bytes → Option BlockContent) (bodyOf : String → Bytes)
  (blockOf : String → BlockContent) (head : BlockContent) (N : Nat)

theorem stepMain_blocked_recv (P : Pipeline σ ε) (hm : P.mpc = .recv) (hb : P.bodies = []) :
    stepMain decode P = P := by
  unfold stepMain
  cases hw : P.wpc <;> simp [hm, hb]

theorem stepMain_done (P : Pipeline σ ε) (hm : P.mpc = .done) : stepMain decode P = P := by
  unfold stepMain
  cases hw : P.wpc <;> simp [hm]

theorem stepWalker_blocked (P : Pipeline σ ε) (hw : P.wpc = .recv) (hh : P.hashes = []) :
    stepWalker roundTrip P = P := by
  unfold stepWalker
  cases hm : P.mpc <;> simp [hw, hh]

theorem stage_seed_main (hN : 2 ≤ N) (P : Pipeline σ ε)
    (h : AtStage bodyOf blockOf head N .seed 0 P) :
    AtStage bodyOf blockOf head N .hashQueued 0 (stepMain decode P) := by
  obtain ⟨hlen, -, hm, hi, hb, ht, hs, hr, hh, hbo, hw, hrq, hp⟩ := h
  have h1 : 0 < N - 1 := by omega
  have h2 : 0 + 1 < N := by omega
  simp only [AtStage, stepMain, hw, hm, hh, hlen, List.length_nil, h1, h2, if_true, hb, ht, hs,
    hr, hbo, hrq, hp, List.nil_append, chain, and_self, and_true, true_and]
  simp [chainHashes, chainBodies, chain, List.range_succ]

theorem stage_hashQueued_walker
    (hfetch : ∀ s hash, (fetchByHash roundTrip s hash).1 = .ok (bodyOf hash))
    (k : Nat) (P : Pipeline σ ε) (h : AtStage bodyOf blockOf head N .hashQueued k P) :
    AtStage bodyOf blockOf head N .bodyFetched k (stepWalker roundTrip P) := by
  obtain ⟨hlen, hk, hm, hi, hb, ht, hs, hr, hh, hbo, hw, hrq, hp⟩ := h
  simp only [AtStage, stepWalker, hw, hm, hh, attempts_of_fetch_ok roundTrip bodyOf hfetch,
    hlen, hk, hi, hb, ht, hs, hr, hbo, hrq, hp, chainHashes_succ, and_self, and_true, true_and]

theorem stage_bodyFetched_walker (hN : 2 ≤ N)
    (k : Nat) (P : Pipeline σ ε) (h : AtStage bodyOf blockOf head N .bodyFetched k P) :
    AtStage bodyOf blockOf head N .bodyQueued k (stepWalker roundTrip P) := by
  obtain ⟨hlen, hk, hm, hi, hb, ht, hs, hr, hh, hbo, hw, hbd, hrq, hp⟩ := h
  have h1 : 0 < N - 1 := by omega
  simp only [AtStage, stepWalker, hw, hm, hh, hlen, hk, hi, hb, ht, hs, hr, hbo, hbd, hrq, hp,
    List.length_nil, h1, if_true, List.nil_append, chainBodies_succ, and_self, and_true,
    true_and]

theorem stage_bodyQueued_main
    (hdecode : ∀ hash, decode (bodyOf hash) = some (blockOf hash))
    (k : Nat) (P : Pipeline σ ε) (h : AtStage bodyOf blockOf head N .bodyQueued k P) :
    AtStage bodyOf blockOf head N .bodyDecoded k (stepMain decode P) := by
  obtain ⟨hlen, hk, hm, hi, hb, ht, hs, hr, hh, hbo, hw, hrq, hp⟩ := h
  simp only [AtStage, stepMain, hw, hm, hh, hlen, hk, hi, hb, ht, hs, hr, hbo, hrq, hp, hdecode,
    chain, chainBodies_succ, and_self, and_true, true_and]

theorem stage_bodyDecoded_main_next
    (k : Nat) (hk2 : k + 2 < N) (P : Pipeline σ ε)
    (h : AtStage bodyOf blockOf head N .bodyDecoded k P) :
    AtStage bodyOf blockOf head N .hashQueued (k + 1) (stepMain decode P) := by
  obtain ⟨hlen, hk, hm, hi, hb, ht, hs, hr, hh, hbo, hw, hrq, hp⟩ := h
  have h1 : 0 < N - 1 := by omega
  have h2 : k + 1 < N - 1 := by omega
  have h3 : k + 1 + 1 < N := by omega
  simp only [AtStage, stepMain, hw, hm, hh, hlen, hi, hb, ht, hs, hr, hbo, hrq, hp,
    List.length_nil, h1, h2, h3, if_true, List.nil_append, chainTasks_succ blockOf head (k + 1),
    chainHashes_succ blockOf head (k + 1), and_self, and_true, true_and]

theorem stage_bodyDecoded_main_last
    (k : Nat) (hk2 : k + 2 = N) (P : Pipeline σ ε)
    (h : AtStage bodyOf blockOf head N .bodyDecoded k P) :
    AtStage bodyOf blockOf head N .doneQueued (k + 1) (stepMain decode P) := by
  obtain ⟨hlen, hk, hm, hi, hb, ht, hs, hr, hh, hbo, hw, hrq, hp⟩ := h
  subst hk2
  have h1 : 0 < k + 2 - 1 := by omega
  have h2 : ¬ k + 1 < k + 2 - 1 := by omega
  simp only [AtStage, stepMain, hw, hm, hh, hlen, hi, hb, ht, hs, hr, hbo, hrq, hp,
    List.length_nil, h1, h2, if_true, if_false, List.nil_append,
    chainTasks_succ blockOf head (k + 1), chainHashes_succ blockOf head (k + 1), and_self,
    and_true, true_and]

theorem stage_doneQueued_walker
    (hfetch : ∀ s hash, (fetchByHash roundTrip s hash).1 = .ok (bodyOf hash))
    (k : Nat) (P : Pipeline σ ε) (h : AtStage bodyOf blockOf head N .doneQueued k P) :
    AtStage bodyOf blockOf head N .doneFetched k (stepWalker roundTrip P) := by
  obtain ⟨hlen, hk, hm, hi, hb, ht, hs, hr, hh, hbo, hw, hrq, hp⟩ := h
  subst hk
  simp only [AtStage, stepWalker, hw, hm, hh, attempts_of_fetch_ok roundTrip bodyOf hfetch,
    hlen, hi, hb, ht, hs, hr, hbo, hrq, hp, chainHashes_succ, and_self, and_true, true_and]

theorem stage_doneFetched_walker (hN : 2 ≤ N)
    (k : Nat) (P : Pipeline σ ε) (h : AtStage bodyOf blockOf head N .doneFetched k P) :
    AtStage bodyOf blockOf head N .donePushed k (stepWalker roundTrip P) := by
  obtain ⟨hlen, hk, hm, hi, hb, ht, hs, hr, hh, hbo, hw, hbd, hrq, hp⟩ := h
  subst hk
  have h1 : 0 < k + 1 - 1 := by omega
  simp only [AtStage, stepWalker, hw, hm, hh, hlen, hi, hb, ht, hs, hr, hbo, hbd, hrq, hp,
    List.length_nil, h1, if_true, List.nil_append, chainBodies_succ, and_self, and_true,
    true_and]

theorem inv_init (world : σ) :
    AtStage bodyOf blockOf head N .seed 0 (Pipeline.init N head world : Pipeline σ ε) := by
  simp [AtStage, Pipeline.init, chainTasks, chain, List.range_succ]

theorem AtStage.mpc_recv_of_bodies_nil {st : Stage} {k : Nat} {P : Pipeline σ ε}
    (h : AtStage bodyOf blockOf head N st k P)
    (hst : st = .hashQueued ∨ st = .bodyFetched) : P.mpc = .recv ∧ P.bodies = [] := by
  rcases hst with rfl | rfl
  · obtain ⟨_, _, hm, _, _, _, _, _, _, hbo, _⟩ := h
    exact ⟨hm, hbo⟩
  · obtain ⟨_, _, hm, _, _, _, _, _, _, hbo, _⟩ := h
    exact ⟨hm, hbo⟩

theorem AtStage.mpc_done {st : Stage} {k : Nat} {P : Pipeline σ ε}
    (h : AtStage bodyOf blockOf head N st k P)
    (hst : st = .doneQueued ∨ st = .doneFetched ∨ st = .donePushed) : P.mpc = .done := by
  rcases hst with rfl | rfl | rfl
  · obtain ⟨_, _, hm, _⟩ := h; exact hm
  · obtain ⟨_, _, hm, _⟩ := h; exact hm
  · obtain ⟨_, _, hm, _⟩ := h; exact hm

theorem AtStage.walker_waits {st : Stage} {k : Nat} {P : Pipeline σ ε}
    (h : AtStage bodyOf blockOf head N st k P)
    (hst : st = .seed ∨ st = .bodyQueued ∨ st = .bodyDecoded ∨ st = .donePushed) :
    P.wpc = .recv ∧ P.hashes = [] := by
  rcases hst with rfl | rfl | rfl | rfl
  · obtain ⟨_, _, _, _, _, _, _, _, hh, _, hw, _⟩ := h
    exact ⟨hw, hh⟩
  · obtain ⟨_, _, _, _, _, _, _, _, hh, _, hw, _⟩ := h
    exact ⟨hw, hh⟩
  · obtain ⟨_, _, _, _, _, _, _, _, hh, _, hw, _⟩ := h
    exact ⟨hw, hh⟩
  · obtain ⟨_, _, _, _, _, _, _, _, hh, _, hw, _⟩ := h
    exact ⟨hw, hh⟩

theorem AtStage.mpc_eq {st : Stage} {k : Nat} {P : Pipeline σ ε}
    (h : AtStage bodyOf blockOf head N st k P) : P.mpc = st.mainPc := by
  cases st <;> (obtain ⟨_, _, hm, _⟩ := h; exact hm)

theorem AtStage.wpc_eq {st : Stage} {k : Nat} {P : Pipeline σ ε}
    (h : AtStage bodyOf blockOf head N st k P) : P.wpc = st.walkerPc := by
  cases st <;> (obtain ⟨_, _, _, _, _, _, _, _, _, _, hw, _⟩ := h; exact hw)

theorem AtStage.tasks_eq {st : Stage} {k : Nat} {P : Pipeline σ ε}
    (h : AtStage bodyOf blockOf head N st k P) :
    P.tasks = chainTasks blockOf head (k + 1) ∧ k + 1 ≤ N ∨
      P.tasks = chainTasks blockOf head 1 ∧ st = .seed := by
  cases st with
  | seed => obtain ⟨_, _, _, _, _, ht, _⟩ := h; exact Or.inr ⟨ht, rfl⟩
  | hashQueued => obtain ⟨_, hk, _, _, _, ht, _⟩ := h; exact Or.inl ⟨ht, by omega⟩
  | bodyFetched => obtain ⟨_, hk, _, _, _, ht, _⟩ := h; exact Or.inl ⟨ht, by omega⟩
  | bodyQueued => obtain ⟨_, hk, _, _, _, ht, _⟩ := h; exact Or.inl ⟨ht, by omega⟩
  | bodyDecoded => obtain ⟨_, hk, _, _, _, ht, _⟩ := h; exact Or.inl ⟨ht, by omega⟩
  | doneQueued => obtain ⟨_, hk, _, _, _, ht, _⟩ := h; exact Or.inl ⟨ht, by omega⟩
  | doneFetched => obtain ⟨_, hk, _, _, _, ht, _⟩ := h; exact Or.inl ⟨ht, by omega⟩
  | donePushed => obtain ⟨_, hk, _, _, _, ht, _⟩ := h; exact Or.inl ⟨ht, by omega⟩

theorem inv_step (hN : 2 ≤ N)
    (hfetch : ∀ s hash, (fetchByHash roundTrip s hash).1 = .ok (bodyOf hash))
    (hdecode : ∀ hash, decode (bodyOf hash) = some (blockOf hash))
    (P : Pipeline σ ε) (who : Bool) (h : Inv bodyOf blockOf head N P) :
    Inv bodyOf blockOf head N (step roundTrip decode P who) := by
  obtain ⟨st, k, h⟩ := h
  cases who with
  | true =>
    simp only [step, if_true]
    cases st with
    | seed =>
      obtain rfl : k = 0 := h.2.1
      exact ⟨_, _, stage_seed_main decode bodyOf blockOf head N hN P h⟩
    | hashQueued =>
      obtain ⟨hm, hbo⟩ := h.mpc_recv_of_bodies_nil bodyOf blockOf head N (Or.inl rfl)
      rw [stepMain_blocked_recv decode P hm hbo]
      exact ⟨_, _, h⟩
    | bodyFetched =>
      obtain ⟨hm, hbo⟩ := h.mpc_recv_of_bodies_nil bodyOf blockOf head N (Or.inr rfl)
      rw [stepMain_blocked_recv decode P hm hbo]
      exact ⟨_, _, h⟩
    | bodyQueued => exact ⟨_, _, stage_bodyQueued_main decode bodyOf blockOf head N hdecode k P h⟩
    | bodyDecoded =>
      have hk : k + 1 < N := h.2.1
      rcases Nat.lt_or_ge (k + 2) N with h2 | h2
      · exact ⟨_, _, stage_bodyDecoded_main_next decode bodyOf blockOf head N k h2 P h⟩
      · exact ⟨_, _, stage_bodyDecoded_main_last decode bodyOf blockOf head N k (by omega) P h⟩
    | doneQueued =>
      rw [stepMain_done decode P (h.mpc_done bodyOf blockOf head N (Or.inl rfl))]
      exact ⟨_, _, h⟩
    | doneFetched =>
      rw [stepMain_done decode P (h.mpc_done bodyOf blockOf head N (Or.inr (Or.inl rfl)))]
      exact ⟨_, _, h⟩
    | donePushed =>
      rw [stepMain_done decode P (h.mpc_done bodyOf blockOf head N (Or.inr (Or.inr rfl)))]
      exact ⟨_, _, h⟩
  | false =>
    simp only [step, Bool.false_eq_true, if_false]
    cases st with
    | seed =>
      obtain ⟨hw, hh⟩ := h.walker_waits bodyOf blockOf head N (Or.inl rfl)
      rw [stepWalker_blocked roundTrip P hw hh]
      exact ⟨_, _, h⟩
    | hashQueued =>
      exact ⟨_, _, stage_hashQueued_walker roundTrip bodyOf blockOf head N hfetch k P h⟩
    | bodyFetched =>
      exact ⟨_, _, stage_bodyFetched_walker roundTrip bodyOf blockOf head N hN k P h⟩
    | bodyQueued =>
      obtain ⟨hw, hh⟩ := h.walker_waits bodyOf blockOf head N (Or.inr (Or.inl rfl))
      rw [stepWalker_blocked roundTrip P hw hh]
      exact ⟨_, _, h⟩
    | bodyDecoded =>
      obtain ⟨hw, hh⟩ := h.walker_waits bodyOf blockOf head N (Or.inr (Or.inr (Or.inl rfl)))
      rw [stepWalker_blocked roundTrip P hw hh]
      exact ⟨_, _, h⟩
    | doneQueued =>
      exact ⟨_, _, stage_doneQueued_walker roundTrip bodyOf blockOf head N hfetch k P h⟩
    | doneFetched =>
      exact ⟨_, _, stage_doneFetched_walker roundTrip bodyOf blockOf head N (by omega) k P h⟩
    | donePushed =>
      obtain ⟨hw, hh⟩ := h.walker_waits bodyOf blockOf head N (Or.inr (Or.inr (Or.inr rfl)))
      rw [stepWalker_blocked roundTrip P hw hh]
      exact ⟨_, _, h⟩

theorem inv_run (hN : 2 ≤ N)
    (hfetch : ∀ s hash, (fetchByHash roundTrip s hash).1 = .ok (bodyOf hash))
    (hdecode : ∀ hash, decode (bodyOf hash) = some (blockOf hash))
    (sched : List Bool) :
    ∀ P : Pipeline σ ε, Inv bodyOf blockOf head N P →
      Inv bodyOf blockOf head N (run roundTrip decode sched P) := by
  induction sched with
  | nil => intro P h; exact h
  | cons who sched ih =>
    intro P h
    exact ih _ (inv_step roundTrip decode bodyOf blockOf head N hN hfetch hdecode P who h)

theorem rounds_reach_done (hN : 2 ≤ N)
    (hfetch : ∀ s hash, (fetchByHash roundTrip s hash).1 = .ok (bodyOf hash))
    (hdecode : ∀ hash, decode (bodyOf hash) = some (blockOf hash)) (n : Nat) :
    ∀ (k : Nat) (P : Pipeline σ ε), k + n + 1 = N →
      AtStage bodyOf blockOf head N .hashQueued k P →
      AtStage bodyOf blockOf head N .doneQueued (N - 1) (run roundTrip decode (rounds n) P) := by
  induction n with
  | zero =>
    intro k P hkn h
    have hk : k + 1 < N := h.2.1
    omega
  | succ n ih =>
    intro k P hkn h
    have h1 := stage_hashQueued_walker roundTrip bodyOf blockOf head N hfetch k P h
    have h2 := stage_bodyFetched_walker roundTrip bodyOf blockOf head N hN k _ h1
    have h3 := stage_bodyQueued_main decode bodyOf blockOf head N hdecode k _ h2
    simp only [rounds, run, List.foldl_cons, step, Bool.false_eq_true, if_false, if_true]
    cases n with
    | zero =>
      have h4 := stage_bodyDecoded_main_last decode bodyOf blockOf head N k (by omega) _ h3
      have hk1 : k + 1 = N - 1 := by omega
      rw [hk1] at h4
      exact h4
    | succ n =>
      have h4 := stage_bodyDecoded_main_next decode bodyOf blockOf head N k (by omega) _ h3
      exact ih (k + 1) _ (by omega) h4

theorem completeSchedule_reaches_done (hN : 2 ≤ N)
    (hfetch : ∀ s hash, (fetchByHash roundTrip s hash).1 = .ok (bodyOf hash))
    (hdecode : ∀ hash, decode (bodyOf hash) = some (blockOf hash)) (world : σ) :
    AtStage bodyOf blockOf head N .doneQueued (N - 1)
      (run roundTrip decode (completeSchedule N) (Pipeline.init N head world)) := by
  have h0 := stage_seed_main decode bodyOf blockOf head N hN _
    (inv_init (ε := ε) bodyOf blockOf head N world)
  exact rounds_reach_done roundTrip decode bodyOf blockOf head N hN hfetch hdecode (N - 1) 0 _
    (by omega) h0

theorem inv_tasks (hN : 2 ≤ N) (P : Pipeline σ ε) (h : Inv bodyOf blockOf head N P) :
    P.tasks = chainTasks blockOf head P.tasks.length ∧ P.tasks.length ≤ N := by
  have hlen : ∀ n, (chainTasks blockOf head n).length = n := by
    intro n; simp [chainTasks]
  obtain ⟨st, k, h⟩ := h
  rcases h.tasks_eq bodyOf blockOf head N with ⟨ht, hk⟩ | ⟨ht, _⟩
  · rw [ht, hlen]; exact ⟨rfl, hk⟩
  · rw [ht, hlen]; exact ⟨rfl, by omega⟩

theorem inv_done (P : Pipeline σ ε) (h : Inv bodyOf blockOf head N P) (hd : P.mpc = .done) :
    P.tasks = chainTasks blockOf head N ∧ P.sent = chainHashes blockOf head N ∧
    P.received = chainBodies bodyOf blockOf head (N - 1) ∧
    (P.hashes = [(chain blockOf head (N - 1)).PrevHash] ∨
      P.walker.requested = chainHashes blockOf head N) ∧
    P.bodies.length ≤ 1 := by
  obtain ⟨st, k, h⟩ := h
  cases st with
  | seed => have hm := h.mpc_eq bodyOf blockOf head N; rw [hd] at hm; exact absurd hm (by decide)
  | hashQueued => have hm := h.mpc_eq bodyOf blockOf head N; rw [hd] at hm; exact absurd hm (by decide)
  | bodyFetched => have hm := h.mpc_eq bodyOf blockOf head N; rw [hd] at hm; exact absurd hm (by decide)
  | bodyQueued => have hm := h.mpc_eq bodyOf blockOf head N; rw [hd] at hm; exact absurd hm (by decide)
  | bodyDecoded => have hm := h.mpc_eq bodyOf blockOf head N; rw [hd] at hm; exact absurd hm (by decide)
  | doneQueued =>
    obtain ⟨hlen, hk, hm, hi, hb, ht, hs, hr, hh, hbo, hw, hrq, hp⟩ := h
    subst hk
    simp [ht, hs, hr, hh, hbo]
  | doneFetched =>
    obtain ⟨hlen, hk, hm, hi, hb, ht, hs, hr, hh, hbo, hw, hbd, hrq, hp⟩ := h
    subst hk
    simp [ht, hs, hr, hh, hbo, hrq]
  | donePushed =>
    obtain ⟨hlen, hk, hm, hi, hb, ht, hs, hr, hh, hbo, hw, hrq, hp⟩ := h
    subst hk
    simp [ht, hs, hr, hh, hbo, hrq]

theorem inv_progress (hN : 2 ≤ N)
    (hfetch : ∀ s hash, (fetchByHash roundTrip s hash).1 = .ok (bodyOf hash))
    (hdecode : ∀ hash, decode (bodyOf hash) = some (blockOf hash))
    (P : Pipeline σ ε) (h : Inv bodyOf blockOf head N P) (hnd : P.mpc ≠ .done) :
    stepMain decode P ≠ P ∨ stepWalker roundTrip P ≠ P := by
  obtain ⟨st, k, h⟩ := h
  have hm := h.mpc_eq bodyOf blockOf head N
  have hw := h.wpc_eq bodyOf blockOf head N
  cases st with
  | seed =>
    left
    obtain rfl : k = 0 := h.2.1
    have h' := (stage_seed_main decode bodyOf blockOf head N hN P h).mpc_eq
    intro heq
    rw [heq, hm] at h'
    exact absurd h' (by decide)
  | hashQueued =>
    right
    have h' := (stage_hashQueued_walker roundTrip bodyOf blockOf head N hfetch k P h).wpc_eq
    intro heq
    rw [heq, hw] at h'
    exact absurd h' (by decide)
  | bodyFetched =>
    right
    have h' := (stage_bodyFetched_walker roundTrip bodyOf blockOf head N hN k P h).wpc_eq
    intro heq
    rw [heq, hw] at h'
    exact absurd h' (by decide)
  | bodyQueued =>
    left
    have h' := (stage_bodyQueued_main decode bodyOf blockOf head N hdecode k P h).mpc_eq
    intro heq
    rw [heq, hm] at h'
    exact absurd h' (by decide)
  | bodyDecoded =>
    left
    have hk : k + 1 < N := h.2.1
    intro heq
    rcases Nat.lt_or_ge (k + 2) N with h2 | h2
    · have h' := (stage_bodyDecoded_main_next decode bodyOf blockOf head N k h2 P h).mpc_eq
      rw [heq, hm] at h'
      exact absurd h' (by decide)
    · have h' := (stage_bodyDecoded_main_last decode bodyOf blockOf head N k (by omega) P
        h).mpc_eq
      rw [heq, hm] at h'
      exact absurd h' (by decide)
  | doneQueued => exact absurd hm hnd
  | doneFetched => exact absurd hm hnd
  | donePushed => exact absurd hm hnd

end Stages

/-- C8: in a run of depth `N` (`2 ≤ N`; the source has `N = 100`) in which every
call of the walker answers with the body of the asked hash and every body
decodes, under every schedule the tasks spawned so far are the transaction
lists of the first blocks of the walk, in order and at most `N` of them; once
`main` has left its loop they are exactly those of the `N` blocks
`chain 0, ..., chain (N - 1)`, where `chain 0` is the head and `chain (k + 1)`
is the block named by the parent hash of `chain k`; before that, `main` or the
walker can always move; and the loop is left under the schedule
`completeSchedule N`. -/
theorem main_spawns_one_task_per_block {σ ε : Type}
    (roundTrip : σ → String → Except ε Bytes × σ) (decode : Bytes → Option BlockContent)
    (bodyOf : String → Bytes) (blockOf : String → BlockContent) (head : BlockContent)
    (N : Nat) (world : σ) (hN : 2 ≤ N)
    (hfetch : ∀ s hash, (fetchByHash roundTrip s hash).1 = .ok (bodyOf hash))
    (hdecode : ∀ hash, decode (bodyOf hash) = some (blockOf hash)) :
    (∀ sched : List Bool,
      (run roundTrip decode sched (Pipeline.init N head world)).tasks =
          chainTasks blockOf head
            (run roundTrip decode sched (Pipeline.init N head world)).tasks.length ∧
        (run roundTrip decode sched (Pipeline.init N head world)).tasks.length ≤ N ∧
        ((run roundTrip decode sched (Pipeline.init N head world)).mpc = .done →
          (run roundTrip decode sched (Pipeline.init N head world)).tasks =
              chainTasks blockOf head N ∧
            (run roundTrip decode sched (Pipeline.init N head world)).tasks.length = N) ∧
        ((run roundTrip decode sched (Pipeline.init N head world)).mpc ≠ .done →
          stepMain decode (run roundTrip decode sched (Pipeline.init N head world)) ≠
              run roundTrip decode sched (Pipeline.init N head world) ∨
            stepWalker roundTrip (run roundTrip decode sched (Pipeline.init N head world)) ≠
              run roundTrip decode sched (Pipeline.init N head world))) ∧
    (run roundTrip decode (completeSchedule N) (Pipeline.init N head world)).mpc = .done ∧
    (∀ k, chain blockOf head (k + 1) = blockOf (chain blockOf head k).PrevHash) := by
  refine ⟨?_, (completeSchedule_reaches_done roundTrip decode bodyOf blockOf head N hN hfetch
    hdecode world).mpc_eq, fun _ => rfl⟩
  intro sched
  have hinv := inv_run roundTrip decode bodyOf blockOf head N hN hfetch hdecode sched _
    ⟨_, _, inv_init (ε := ε) bodyOf blockOf head N world⟩
  have ht := inv_tasks bodyOf blockOf head N hN _ hinv
  refine ⟨ht.1, ht.2, fun hd => ?_,
    inv_progress roundTrip decode bodyOf blockOf head N hN hfetch hdecode _ hinv⟩
  have hdone := (inv_done bodyOf blockOf head N _ hinv hd).1
  refine ⟨hdone, ?_⟩
  rw [hdone]
  simp [chainTasks]

/-- C8 on a walk of depth 2: the head holds `(A→B, 100)`, every hash is
answered by the body `[1]`, which decodes to a block holding `(A→C, 50)`. -/
theorem main_spawns_one_task_per_block_witness :
    (run (fun (s : Unit) _ => ((Except.ok [1] : Except String Bytes), s))
        (fun _ => some ⟨"0x1", "h1", "p1", [⟨"A", "C", "50"⟩]⟩) (completeSchedule 2)
        (Pipeline.init 2 ⟨"0x2", "h2", "p2", [⟨"A", "B", "100"⟩]⟩ ())).tasks =
      chainTasks (fun _ => ⟨"0x1", "h1", "p1", [⟨"A", "C", "50"⟩]⟩)
        ⟨"0x2", "h2", "p2", [⟨"A", "B", "100"⟩]⟩ 2 ∧
    chainTasks (fun _ => ⟨"0x1", "h1", "p1", [⟨"A", "C", "50"⟩]⟩)
        ⟨"0x2", "h2", "p2", [⟨"A", "B", "100"⟩]⟩ 2 =
      [[⟨"A", "B", "100"⟩], [⟨"A", "C", "50"⟩]] := by
  have h := main_spawns_one_task_per_block
    (fun (s : Unit) _ => ((Except.ok [1] : Except String Bytes), s))
    (fun _ => some ⟨"0x1", "h1", "p1", [⟨"A", "C", "50"⟩]⟩) (fun _ => [1])
    (fun _ => ⟨"0x1", "h1", "p1", [⟨"A", "C", "50"⟩]⟩)
    ⟨"0x2", "h2", "p2", [⟨"A", "B", "100"⟩]⟩ 2 () (by decide) (fun _ _ => rfl) (fun _ => rfl)
  exact ⟨((h.1 (completeSchedule 2)).2.2.1 h.2.1).1, by decide⟩

/-- C10: in a run of depth `N` without failing calls or decodings, once `main`
has left its loop, under every schedule: it has sent exactly the `N` parent
hashes of `chain 0, ..., chain (N - 1)` and received exactly the `N - 1` bodies
asked for by the first `N - 1` of them; the last hash sent, the parent hash of
the `N`-th block, waits in the channel or has been asked for by the walker;
the tasks are those of the `N` blocks only, and the body fetched for the last
hash, if any, is still in the channel.  The loop is left under the schedule
`completeSchedule N`. -/
theorem main_sends_one_more_hash_than_bodies {σ ε : Type}
    (roundTrip : σ → String → Except ε Bytes × σ) (decode : Bytes → Option BlockContent)
    (bodyOf : String → Bytes) (blockOf : String → BlockContent) (head : BlockContent)
    (N : Nat) (world : σ) (hN : 2 ≤ N)
    (hfetch : ∀ s hash, (fetchByHash roundTrip s hash).1 = .ok (bodyOf hash))
    (hdecode : ∀ hash, decode (bodyOf hash) = some (blockOf hash)) :
    (∀ sched : List Bool,
      (run roundTrip decode sched (Pipeline.init N head world)).mpc = .done →
        (run roundTrip decode sched (Pipeline.init N head world)).sent =
            chainHashes blockOf head N ∧
          (run roundTrip decode sched (Pipeline.init N head world)).sent.length = N ∧
          (run roundTrip decode sched (Pipeline.init N head world)).sent.getLast? =
            some (chain blockOf head (N - 1)).PrevHash ∧
          (run roundTrip decode sched (Pipeline.init N head world)).received =
            chainBodies bodyOf blockOf head (N - 1) ∧
          (run roundTrip decode sched (Pipeline.init N head world)).received.length = N - 1 ∧
          ((run roundTrip decode sched (Pipeline.init N head world)).hashes =
              [(chain blockOf head (N - 1)).PrevHash] ∨
            (run roundTrip decode sched (Pipeline.init N head world)).walker.requested =
              chainHashes blockOf head N) ∧
          (run roundTrip decode sched (Pipeline.init N head world)).tasks =
            chainTasks blockOf head N) ∧
    (run roundTrip decode (completeSchedule N) (Pipeline.init N head world)).mpc = .done := by
  refine ⟨?_, (completeSchedule_reaches_done roundTrip decode bodyOf blockOf head N hN hfetch
    hdecode world).mpc_eq⟩
  intro sched hd
  have hinv := inv_run roundTrip decode bodyOf blockOf head N hN hfetch hdecode sched _
    ⟨_, _, inv_init (ε := ε) bodyOf blockOf head N world⟩
  obtain ⟨ht, hs, hr, hq, _⟩ := inv_done bodyOf blockOf head N _ hinv hd
  refine ⟨hs, by rw [hs]; simp [chainHashes], ?_, hr, by rw [hr]; simp [chainBodies], hq, ht⟩
  rw [hs]
  obtain ⟨n, rfl⟩ : ∃ n, N = n + 1 := ⟨N - 1, by omega⟩
  simp [chainHashes_succ]

/-- C10 on the walk of depth 2: two hashes sent, one body received, the second
hash still queued when the loop is left. -/
theorem main_sends_one_more_hash_than_bodies_witness :
    (run (fun (s : Unit) _ => ((Except.ok [1] : Except String Bytes), s))
        (fun _ => some ⟨"0x1", "h1", "p1", [⟨"A", "C", "50"⟩]⟩) (completeSchedule 2)
        (Pipeline.init 2 ⟨"0x2", "h2", "p2", [⟨"A", "B", "100"⟩]⟩ ())).sent.length = 2 ∧
    (run (fun (s : Unit) _ => ((Except.ok [1] : Except String Bytes), s))
        (fun _ => some ⟨"0x1", "h1", "p1", [⟨"A", "C", "50"⟩]⟩) (completeSchedule 2)
        (Pipeline.init 2 ⟨"0x2", "h2", "p2", [⟨"A", "B", "100"⟩]⟩ ())).received.length =
      2 - 1 ∧
    (run (fun (s : Unit) _ => ((Except.ok [1] : Except String Bytes), s))
        (fun _ => some ⟨"0x1", "h1", "p1", [⟨"A", "C", "50"⟩]⟩) (completeSchedule 2)
        (Pipeline.init 2 ⟨"0x2", "h2", "p2", [⟨"A", "B", "100"⟩]⟩ ())).hashes = ["p1"] := by
  have h := main_sends_one_more_hash_than_bodies
    (fun (s : Unit) _ => ((Except.ok [1] : Except String Bytes), s))
    (fun _ => some ⟨"0x1", "h1", "p1", [⟨"A", "C", "50"⟩]⟩) (fun _ => [1])
    (fun _ => ⟨"0x1", "h1", "p1", [⟨"A", "C", "50"⟩]⟩)
    ⟨"0x2", "h2", "p2", [⟨"A", "B", "100"⟩]⟩ 2 () (by decide) (fun _ _ => rfl) (fun _ => rfl)
  obtain ⟨_, hsent, _, _, hreceived, _⟩ := h.1 (completeSchedule 2) h.2
  exact ⟨hsent, hreceived, by decide⟩

/-- C4, evaluated on the code: in the run of depth 2 the two tasks are
`[(A→B, 100)]` and `[(A→C, 50)]`.  Head first, the ledger ends as `A = 150`,
`B = 150`, `C = 50`; parent first, as `A = 150`, `C = 150`, `B = 100`: in
neither order is it `A = 150`, `B = 100`, `C = 50`.  In the first order `B` is
tied with `A`, and the scan reports `B` when the map yields `B` before `A`. -/
theorem depth_two_scenario_run :
    (run (fun (s : Unit) _ => ((Except.ok [1] : Except String Bytes), s))
        (fun _ => some ⟨"0x1", "h1", "p1", [⟨"A", "C", "50"⟩]⟩) (completeSchedule 2)
        (Pipeline.init 2 ⟨"0x2", "h2", "p2", [⟨"A", "B", "100"⟩]⟩ ())).tasks =
      [[⟨"A", "B", "100"⟩], [⟨"A", "C", "50"⟩]] ∧
    (mergeBlocks setString0 Ledger.empty
      [[⟨"A", "B", "100"⟩], [⟨"A", "C", "50"⟩]]).entries =
        [("A", 150), ("B", 150), ("C", 50)] ∧
    (mergeBlocks setString0 Ledger.empty
      [[⟨"A", "C", "50"⟩], [⟨"A", "B", "100"⟩]]).entries =
        [("A", 150), ("C", 150), ("B", 100)] ∧
    (mergeBlocks setString0 Ledger.empty
      [[⟨"A", "B", "100"⟩], [⟨"A", "C", "50"⟩]]).wallets = [("A", 0), ("B", 0), ("C", 1)] ∧
    findMax (mergeBlocks setString0 Ledger.empty [[⟨"A", "B", "100"⟩], [⟨"A", "C", "50"⟩]])
      [("B", 0), ("A", 0), ("C", 1)] = ("B", 150) := by
  decide

end GetBlock
